import Mathlib

/-!
Verification of the Cooklang.ts recipe library.

Text is embedded as lists of characters.  The serializer, the image-URL
builder and the JSON export are translated from the source file
src/index.ts.  The parser lives in the repository file Parser.ts, which is
not part of the sources available here; every definition belonging to it is
modelled from the specification and marked accordingly in its doc comment.
Numbers carried by quantities are modelled as exact rationals stored in a
normalised numerator/denominator pair so that every definition evaluates
inside the kernel.
-/

/-- Character strings, embedded as lists of characters. -/
abbrev Str := List Char

/-- Whitespace recognised by trimming (space, tab, carriage return). -/
def wsp (c : Char) : Bool := c == ' ' || c == '\t' || c == '\r'

/-- Remove leading whitespace. -/
def ltrim (s : Str) : Str := s.dropWhile wsp

/-- Remove trailing whitespace. -/
def rtrim (s : Str) : Str := (s.reverse.dropWhile wsp).reverse

/-- Remove leading and trailing whitespace. -/
def trimChars (s : Str) : Str := rtrim (ltrim s)

/-- Split a string at the first occurrence of a character; the separator is
kept in neither part.  Returns none when the character does not occur. -/
def splitFirst (c : Char) : Str → Option (Str × Str)
  | [] => none
  | x :: xs =>
    if x = c then some ([], xs)
    else (splitFirst c xs).map (fun p => (x :: p.1, p.2))

/-- Join a list of strings with a separator, the way the JavaScript array
join method does: no separator before the first or after the last element. -/
def joinSep (sep : Str) : List Str → Str
  | [] => []
  | [x] => x
  | x :: y :: xs => x ++ sep ++ joinSep sep (y :: xs)

/-- A rational number stored as numerator and denominator.  This models the
JavaScript number carried by quantities; parsing and rendering only ever
produce rationals with an exact finite decimal meaning for the inputs the
grammar accepts. -/
structure Qnum where
  num : Int
  den : Nat
deriving DecidableEq, Repr

/-- Fuelled Euclidean algorithm; the fuel is always taken large enough. -/
def gcdF : Nat → Nat → Nat → Nat
  | 0, _, b => b
  | _ + 1, 0, b => b
  | f + 1, a + 1, b => gcdF f (b % (a + 1)) (a + 1)

/-- Build a normalised rational from a numerator and a non-zero
denominator (a zero denominator never reaches this point). -/
def qnorm (n : Int) (d : Nat) : Qnum :=
  if d = 0 then ⟨0, 1⟩
  else
    let g := gcdF (n.natAbs + d) n.natAbs d
    if g = 0 then ⟨0, 1⟩ else ⟨n / (g : Int), d / g⟩

/-- The rational value represented by a Qnum, used to state claims. -/
def Qnum.val (q : Qnum) : ℚ := (q.num : ℚ) / (q.den : ℚ)

/-- Decimal digit character for a value below ten. -/
def digitChar (n : Nat) : Char := Char.ofNat ('0'.toNat + n)

/-- Fuelled decimal rendering of a natural number. -/
def natDigitsF : Nat → Nat → Str
  | 0, _ => []
  | f + 1, n => if n < 10 then [digitChar n] else natDigitsF f (n / 10) ++ [digitChar (n % 10)]

/-- Decimal rendering of a natural number. -/
def natDigits (n : Nat) : Str := natDigitsF (n + 1) n

/-- Fuelled long-division digits of a proper fraction r / d; mirrors the
finite decimal expansion JavaScript prints for the numbers the grammar can
produce (seventeen places at most). -/
def fracDigitsF : Nat → Nat → Nat → Str
  | 0, _, _ => []
  | f + 1, r, d => if r = 0 then [] else digitChar (r * 10 / d) :: fracDigitsF f (r * 10 % d) d

/-- Decimal rendering of a Qnum, matching the string JavaScript
concatenation produces for the number. -/
def renderNum (q : Qnum) : Str :=
  let sign : Str := if q.num < 0 then ['-'] else []
  let a := q.num.natAbs
  let ip := a / q.den
  let r := a % q.den
  sign ++ natDigits ip ++ (if r = 0 then [] else '.' :: fracDigitsF 17 r q.den)

/-- A quantity is either a number or the raw slot text kept verbatim (the
dual representation of the data model). -/
inductive Quantity where
  | num (v : Qnum)
  | text (s : Str)
deriving DecidableEq, Repr

/-- JavaScript truthiness of a quantity value: a number is truthy when it
is non-zero, a string when it is non-empty. -/
def qtruthy : Quantity → Bool
  | .num v => v.num != 0
  | .text s => !s.isEmpty

/-- A step item: literal text, or an annotated ingredient / cookware /
timer.  Cookware carries no units field, matching the data model. -/
inductive StepItem where
  | text (value : Str)
  | ingredient (name : Str) (quantity : Option Quantity) (units : Option Str)
  | cookware (name : Str) (quantity : Option Quantity)
  | timer (name : Str) (quantity : Option Quantity) (units : Option Str)
deriving DecidableEq, Repr

/-- A shopping-list item: a name and an optional display synonym. -/
structure SItem where
  name : Str
  synonym : Option Str
deriving DecidableEq, Repr

/-- The root aggregate: metadata entries, ordered steps, and the shopping
list, each kept as an insertion-ordered association list.  The parser
handle held by the TypeScript class is stateless and not modelled. -/
structure Recipe where
  metadata : List (Str × Str)
  steps : List (List StepItem)
  shoppingList : List (Str × List SItem)
deriving DecidableEq, Repr

/-! ### Quantity expression reader -/

/-- All characters are decimal digits and the string is non-empty. -/
def allDigits (s : Str) : Bool := !s.isEmpty && s.all Char.isDigit

/-- Numeric value of a digit string. -/
def digitsVal (s : Str) : Nat := s.foldl (fun a c => a * 10 + (c.toNat - '0'.toNat)) 0

/-- Modelled from the spec: the Quantity Expression Reader of the missing
Parser.ts.  The numeric grammar is tried in order with first match
winning: a fraction a/b, a comma decimal a,b, a plain integer, a dot
decimal; anything else is kept verbatim as raw text, and an empty slot
yields no quantity at all. -/
def parseQuantity (t : Str) : Option Quantity :=
  if t.isEmpty then none
  else
    match splitFirst '/' t with
    | some (a, b) =>
      let a' := trimChars a
      let b' := trimChars b
      if allDigits a' && allDigits b' && digitsVal b' != 0 then
        some (.num (qnorm (digitsVal a') (digitsVal b')))
      else some (.text t)
    | none =>
      match splitFirst ',' t with
      | some (a, b) =>
        if allDigits a && allDigits b then
          some (.num (qnorm (digitsVal a * 10 ^ b.length + digitsVal b) (10 ^ b.length)))
        else some (.text t)
      | none =>
        if allDigits t then some (.num (qnorm (digitsVal t) 1))
        else
          match splitFirst '.' t with
          | some (a, b) =>
            if allDigits a && allDigits b then
              some (.num (qnorm (digitsVal a * 10 ^ b.length + digitsVal b) (10 ^ b.length)))
            else some (.text t)
          | none => some (.text t)

/-- Modelled from the spec: the full quantity slot of the missing
Parser.ts — everything between the braces, split at an optional percent
sign into an amount (fed to the quantity grammar after trimming) and a
trailing units string (trimmed). -/
def parseSlot (slot : Str) : Option Quantity × Option Str :=
  match splitFirst '%' slot with
  | some (a, b) => (parseQuantity (trimChars a), some (trimChars b))
  | none => (parseQuantity (trimChars slot), none)

/-! ### Serializer, translated from Recipe.toCooklang in src/index.ts -/

/-- String laid down by a quantity when concatenated: the rendered number,
or the raw text itself. -/
def quantityStr : Quantity → Str
  | .num v => renderNum v
  | .text s => s

/-- Content written between the braces of an annotated item: the quantity
when truthy, then a percent sign and the units when truthy. -/
def braceInner (q : Option Quantity) (u : Option Str) : Str :=
  (match q with
   | some qv => if qtruthy qv then quantityStr qv else []
   | none => []) ++
  (match u with
   | some us => if !us.isEmpty then '%' :: us else []
   | none => [])

/-- One serialized step item: literal text verbatim, otherwise the sigil,
the name, and a brace pair holding the slot content. -/
def itemStr : StepItem → Str
  | .text v => v
  | .ingredient n q u => '@' :: (n ++ '\x7b' :: (braceInner q u ++ ['\x7d']))
  | .cookware n q => '#' :: (n ++ '\x7b' :: (braceInner q none ++ ['\x7d']))
  | .timer n q u => '~' :: (n ++ '\x7b' :: (braceInner q u ++ ['\x7d']))

/-- One serialized step: the concatenation of its items. -/
def stepLine (s : List StepItem) : Str := (s.map itemStr).flatten

/-- One serialized metadata header line, without its newline. -/
def metaLine (k v : Str) : Str := '>' :: '>' :: ' ' :: (k ++ ':' :: ' ' :: v)

/-- One serialized shopping-list line: the item name, then a pipe and the
synonym when the synonym is truthy. -/
def itemLine (it : SItem) : Str :=
  it.name ++ (match it.synonym with
              | some s => if !s.isEmpty then '|' :: s else []
              | none => [])

/-- One serialized shopping-list category: the header line, a newline, and
the item lines joined by newlines. -/
def categoryStr (kv : Str × List SItem) : Str :=
  kv.1 ++ '\n' :: joinSep ['\n'] (kv.2.map itemLine)

/-- The serialized metadata block: one header line per entry, each followed
by a newline. -/
def metadataSection (r : Recipe) : Str :=
  (r.metadata.map (fun kv => metaLine kv.1 kv.2 ++ ['\n'])).flatten

/-- The serialized steps block: step strings joined by blank lines. -/
def stepsSection (r : Recipe) : Str := joinSep ['\n', '\n'] (r.steps.map stepLine)

/-- The serialized shopping-list block: category strings joined by blank
lines. -/
def shoppingSection (r : Recipe) : Str :=
  joinSep ['\n', '\n'] (r.shoppingList.map categoryStr)

/-- Recipe.toCooklang from src/index.ts: the three blocks are collected in
an array and joined with a single newline. -/
def toCooklang (r : Recipe) : Str :=
  joinSep ['\n']
    [(r.metadata.map (fun kv => metaLine kv.1 kv.2 ++ ['\n'])).flatten,
     joinSep ['\n', '\n'] (r.steps.map stepLine),
     joinSep ['\n', '\n'] (r.shoppingList.map categoryStr)]

/-! ### Image-URL builder, translated from getImageURL in src/index.ts -/

/-- The options accepted by the image-URL builder: an optional step number
and an optional file extension. -/
structure ImageURLOptions where
  step : Option Qnum
  extension : Option Str
deriving DecidableEq, Repr

/-- getImageURL from src/index.ts: the name, then a dot and the step when
the step is truthy, then a dot and the extension, the extension falling
back to png whenever it is falsy. -/
def getImageURL (name : Str) (options : Option ImageURLOptions) : Str :=
  let o := options.getD ⟨none, none⟩
  name ++
    (match o.step with
     | some s => if s.num != 0 then '.' :: renderNum s else []
     | none => []) ++
    '.' ::
    (match o.extension with
     | some e => if !e.isEmpty then e else 'p' :: 'n' :: ['g']
     | none => 'p' :: 'n' :: ['g'])

/-- The effective extension the builder uses: the given one when truthy,
otherwise png. -/
def extEff : Option Str → Str
  | some e => if !e.isEmpty then e else 'p' :: 'n' :: ['g']
  | none => 'p' :: 'n' :: ['g']

/-! ### JSON export, translated from Recipe.toJSON in src/index.ts -/

/-- JSON escaping of one character. -/
def jsonEsc (c : Char) : Str :=
  if c = '"' then ['\\', '"']
  else if c = '\\' then ['\\', '\\']
  else if c = '\n' then ['\\', 'n']
  else if c = '\t' then ['\\', 't']
  else if c = '\r' then ['\\', 'r']
  else [c]

/-- A JSON string literal. -/
def jsonStr (s : Str) : Str := '"' :: (s.map jsonEsc).flatten ++ ['"']

/-- JSON form of a quantity: a number, or a string. -/
def jsonQuantity : Quantity → Str
  | .num v => renderNum v
  | .text s => jsonStr s

/-- JSON form of one step item.  The exact field layout of the runtime
item objects comes from the repository's types.ts, which is not among the
sources; the fields are taken from the data model of the spec. -/
def jsonItem : StepItem → Str
  | .text v => '\x7b' :: ("\"value\":").data ++ jsonStr v ++ ['\x7d']
  | .ingredient n q u =>
    '\x7b' :: ("\"type\":\"ingredient\",\"name\":").data ++ jsonStr n ++
      (match q with
       | some qv => (",\"quantity\":").data ++ jsonQuantity qv
       | none => []) ++
      (match u with
       | some us => (",\"units\":").data ++ jsonStr us
       | none => []) ++ ['\x7d']
  | .cookware n q =>
    '\x7b' :: ("\"type\":\"cookware\",\"name\":").data ++ jsonStr n ++
      (match q with
       | some qv => (",\"quantity\":").data ++ jsonQuantity qv
       | none => []) ++ ['\x7d']
  | .timer n q u =>
    '\x7b' :: ("\"type\":\"timer\",\"name\":").data ++ jsonStr n ++
      (match q with
       | some qv => (",\"quantity\":").data ++ jsonQuantity qv
       | none => []) ++
      (match u with
       | some us => (",\"units\":").data ++ jsonStr us
       | none => []) ++ ['\x7d']

/-- JSON form of the metadata map. -/
def jsonMetadata (md : List (Str × Str)) : Str :=
  '\x7b' :: joinSep [','] (md.map (fun kv => jsonStr kv.1 ++ ':' :: jsonStr kv.2)) ++ ['\x7d']

/-- JSON form of the step list. -/
def jsonSteps (ss : List (List StepItem)) : Str :=
  '[' :: joinSep [','] (ss.map (fun s => '[' :: joinSep [','] (s.map jsonItem) ++ [']'])) ++ [']']

/-- Recipe.toJSON from src/index.ts: JSON.stringify of an object holding
only the metadata and steps fields, in that order. -/
def toJSON (r : Recipe) : Str :=
  '\x7b' :: ("\"metadata\":").data ++ jsonMetadata r.metadata ++
    (",\"steps\":").data ++ jsonSteps r.steps ++ ['\x7d']

/-! ### Document parser, modelled from the spec (Parser.ts is not among
the sources) -/

/-- Drop characters up to and including the closing marker of a block
comment; an unterminated block consumes everything. -/
def dropBlock : Str → Str
  | [] => []
  | '-' :: ']' :: rest => rest
  | _ :: rest => dropBlock rest

/-- Drop characters up to, but not including, the next newline. -/
def dropToEol (s : Str) : Str := s.dropWhile (fun c => c != '\n')

/-- Fuelled worker for the comment stripper. -/
def stripF : Nat → Str → Str
  | 0, _ => []
  | _ + 1, [] => []
  | f + 1, '[' :: '-' :: rest => stripF f (dropBlock rest)
  | f + 1, '-' :: '-' :: rest => stripF f (dropToEol rest)
  | f + 1, c :: rest => c :: stripF f rest

/-- Modelled from the spec: the Comment Stripper of the missing Parser.ts.
Block comments are delimited by bracket-dash pairs and may span lines; an
unterminated block consumes to end of input; line comments are a double
dash to end of line with the line break preserved; the markers are the
standard ones of the notation. -/
def stripComments (s : Str) : Str := stripF (s.length + 1) s

/-- Split a string into its lines at newline characters; a trailing
newline yields a final empty line, and the empty string is one empty
line. -/
def splitLines : Str → List Str
  | [] => [[]]
  | c :: rest =>
    if c = '\n' then [] :: splitLines rest
    else
      match splitLines rest with
      | [] => [[c]]
      | l :: ls => (c :: l) :: ls

/-- Modelled from the spec: the Metadata Line Reader of the missing
Parser.ts.  A header line is the double angle marker followed by a
colon-separated key and value, both trimmed; any other line is not a
metadata line. -/
def readMetadata (line : Str) : Option (Str × Str) :=
  match line with
  | '>' :: '>' :: rest =>
    match splitFirst ':' rest with
    | some (k, v) => some (trimChars k, trimChars v)
    | none => none
  | _ => none

/-- The three annotation sigils. -/
def isSigil (c : Char) : Bool := c == '@' || c == '#' || c == '~'

/-- Characters that end the braced-name scan: a sigil or a brace. -/
def nameStop (c : Char) : Bool := isSigil c || c == '\x7b' || c == '\x7d'

/-- Characters allowed in a single-word name: no whitespace, no sigil or
brace, and no punctuation boundary. -/
def wordChar (c : Char) : Bool :=
  !wsp c && !nameStop c && c != '\n' && c != '.' && c != ',' && c != '!' &&
    c != '?' && c != ';' && c != ':'

/-- The kind of annotated item introduced by a sigil. -/
inductive Tag where
  | ingredient
  | cookware
  | timer
deriving DecidableEq, Repr

/-- Item kind selected by a sigil character. -/
def tagOf (c : Char) : Tag :=
  if c = '@' then .ingredient else if c = '#' then .cookware else .timer

/-- The sigil character of an item kind. -/
def sigilChar : Tag → Char
  | .ingredient => '@'
  | .cookware => '#'
  | .timer => '~'

/-- Build the step item of a kind; cookware discards any units the slot
produced, which the data model does not represent for it. -/
def mkItem : Tag → Str → Option Quantity → Option Str → StepItem
  | .ingredient, n, q, u => .ingredient n q u
  | .cookware, n, q, _ => .cookware n q
  | .timer, n, q, u => .timer n q u

/-- Modelled from the spec: the Inline Item Scanner of the missing
Parser.ts, positioned just after a sigil.  When the run of characters
after the sigil reaches an opening brace before any sigil or closing
brace, the item is in braced form: the name is that run, trimmed, and the
slot is everything up to the closing brace.  Otherwise the name is the
single word at the cursor and no slot is attached.  Returns the item and
the rest of the line after the consumed text. -/
def scanItem (t : Tag) (rest : Str) : StepItem × Str :=
  let pre := rest.takeWhile (fun c => !nameStop c)
  let post := rest.drop pre.length
  if post.head? = some '\x7b' then
    let slot := (post.drop 1).takeWhile (fun c => c != '\x7d')
    let qu := parseSlot slot
    (mkItem t (trimChars pre) qu.1 qu.2, rest.drop (pre.length + 1 + slot.length + 1))
  else
    let w := rest.takeWhile wordChar
    (mkItem t w none none, rest.drop w.length)

/-- Fuelled worker for the step-text scanner. -/
def scanStepF : Nat → Str → List StepItem
  | 0, _ => []
  | _ + 1, [] => []
  | f + 1, c :: rest =>
    if isSigil c then
      (scanItem (tagOf c) rest).1 :: scanStepF f (scanItem (tagOf c) rest).2
    else
      .text ((c :: rest).takeWhile (fun x => !isSigil x)) ::
        scanStepF f ((c :: rest).drop ((c :: rest).takeWhile (fun x => !isSigil x)).length)

/-- Modelled from the spec: scanning one line of step text left to right;
literal runs become text items and sigils hand off to the item scanner. -/
def scanStep (s : Str) : List StepItem := scanStepF (s.length + 1) s

/-- The line opening the shopping-list section.  Modelled from the spec:
the spec names a section start marker without fixing its text; the
bracketed words used here stand for it. -/
def shoppingMarker : Str := ("[shopping list]").data

/-- Append a shopping item to the most recently opened category; with no
category open the item is dropped. -/
def addToLast : List (Str × List SItem) → SItem → List (Str × List SItem)
  | [], _ => []
  | [kv], it => [(kv.1, kv.2 ++ [it])]
  | kv :: kvs, it => kv :: addToLast kvs it

/-- Parser state: metadata and steps gathered so far, the items of the
paragraph being read, whether the shopping-list section has started, and
the categories gathered so far. -/
structure PState where
  metadata : List (Str × Str)
  steps : List (List StepItem)
  cur : List StepItem
  inShopping : Bool
  shopping : List (Str × List SItem)

/-- Record a metadata assignment with last-write-wins map semantics. -/
def upsert : List (Str × Str) → Str → Str → List (Str × Str)
  | [], k, v => [(k, v)]
  | kv :: rest, k, v =>
    if kv.1 = k then (k, v) :: rest else kv :: upsert rest k v

/-- Close the current paragraph: a non-empty item list becomes a step. -/
def endPara (st : PState) : PState :=
  if st.cur.isEmpty then st
  else { st with steps := st.steps ++ [st.cur], cur := [] }

/-- Modelled from the spec: per-line transition of the Document Parser of
the missing Parser.ts.  Inside the shopping-list section, blank lines
separate, indented lines are items with an optional pipe-separated
synonym, and other lines open a new category.  Outside it, a blank line
closes the paragraph, a metadata line records its pair, the section
marker enters the shopping-list state, and any other line is step text
appended to the current paragraph. -/
def feedLine (st : PState) (line : Str) : PState :=
  if st.inShopping then
    if line.all wsp then st
    else if (line.head?.map wsp).getD false then
      let t := trimChars line
      let it : SItem :=
        match splitFirst '|' t with
        | some (a, b) => ⟨trimChars a, some (trimChars b)⟩
        | none => ⟨t, none⟩
      { st with shopping := addToLast st.shopping it }
    else { st with shopping := st.shopping ++ [(trimChars line, [])] }
  else if line.all wsp then endPara st
  else
    match readMetadata line with
    | some kv => { st with metadata := upsert st.metadata kv.1 kv.2 }
    | none =>
      if trimChars line = shoppingMarker then { endPara st with inShopping := true }
      else { st with cur := st.cur ++ scanStep line }

/-- Modelled from the spec: the Document Parser of the missing Parser.ts —
strip comments, split into lines, feed every line through the state
machine, close the last paragraph, and collect the aggregate. -/
def parseChars (s : Str) : Recipe :=
  let st := (splitLines (stripComments s)).foldl feedLine ⟨[], [], [], false, []⟩
  let st := endPara st
  ⟨st.metadata, st.steps, st.shopping⟩

/-- The Recipe constructor from src/index.ts: a truthy source string is
parsed, anything else gives the empty recipe. -/
def recipeMake (source : Option String) : Recipe :=
  match source with
  | some s => if s.data.isEmpty then ⟨[], [], []⟩ else parseChars s.data
  | none => ⟨[], [], []⟩

/-! ### Serialization-compatibility conditions for the round trip -/

/-- An item name the braced form reads back unchanged: free of sigils,
braces and newlines, and already trimmed. -/
def nameOk (n : Str) : Bool :=
  n.all (fun c => !nameStop c && c != '\n') && decide (trimChars n = n)

/-- Brace content the slot scan reads back whole: free of closing braces
and newlines. -/
def innerOk (s : Str) : Bool := s.all (fun c => c != '\x7d' && c != '\n')

/-- Whether a step item is a literal text item. -/
def isTextItem : StepItem → Bool
  | .text _ => true
  | _ => false

/-- One step item the scanner reads back unchanged: text is non-empty and
free of sigils and newlines; an annotated item has a well-behaved name and
a brace content that re-parses to exactly its quantity and units. -/
def itemWFb : StepItem → Bool
  | .text v => !v.isEmpty && v.all (fun c => !isSigil c && c != '\n')
  | .ingredient n q u =>
    nameOk n && innerOk (braceInner q u) && decide (parseSlot (braceInner q u) = (q, u))
  | .cookware n q =>
    nameOk n && innerOk (braceInner q none) && decide (parseSlot (braceInner q none) = (q, none))
  | .timer n q u =>
    nameOk n && innerOk (braceInner q u) && decide (parseSlot (braceInner q u) = (q, u))

/-- The list does not begin with a text item (text items must not be
adjacent, or the scanner merges them). -/
def headNotText : List StepItem → Bool
  | .text _ :: _ => false
  | _ => true

/-- Every item of a step reads back, and no two text items are adjacent. -/
def itemsOk : List StepItem → Bool
  | [] => true
  | .text v :: rest => itemWFb (.text v) && headNotText rest && itemsOk rest
  | it :: rest => itemWFb it && itemsOk rest

/-- A step the parser reads back: non-empty, item-wise well-behaved, and
its rendered line is newline-free, not blank, not metadata-shaped and not
the shopping-list marker. -/
def stepOk (s : List StepItem) : Bool :=
  !s.isEmpty && itemsOk s &&
  decide ('\n' ∉ stepLine s) &&
  !((stepLine s).all wsp) &&
  decide (readMetadata (stepLine s) = none) &&
  decide (trimChars (stepLine s) ≠ shoppingMarker)

/-- A metadata entry the header line reproduces: key and value already
trimmed and newline-free, and the key free of colons. -/
def kvOk (kv : Str × Str) : Bool :=
  decide (ltrim kv.1 = kv.1) && decide (rtrim kv.1 = kv.1) &&
  decide (':' ∉ kv.1) && decide ('\n' ∉ kv.1) &&
  decide (ltrim kv.2 = kv.2) && decide (rtrim kv.2 = kv.2) && decide ('\n' ∉ kv.2)

/-- The canonical, serialization-compatible recipes: empty shopping list,
metadata with distinct well-behaved keys and values, well-behaved steps,
and a serialized form free of comment markers. -/
def wfRecipe (r : Recipe) : Prop :=
  r.shoppingList = [] ∧
  (r.metadata.map Prod.fst).Nodup ∧
  (∀ kv ∈ r.metadata, kvOk kv = true) ∧
  (∀ s ∈ r.steps, stepOk s = true) ∧
  stripComments (toCooklang r) = toCooklang r

instance (r : Recipe) : Decidable (wfRecipe r) := by
  unfold wfRecipe; infer_instance

/-- Whether an optional step number is a positive integer. -/
def stepPosInt : Option Qnum → Bool
  | some s => decide (0 < s.num) && (s.den == 1)
  | none => true

/-- A small canonical recipe used to instantiate the round-trip theorem:
one metadata entry, a text-only step, and an ingredient step with a
numeric quantity and units. -/
def sampleRecipe : Recipe :=
  ⟨[(['a'], ['1'])],
   [[.text (("mix").data)],
    [.ingredient ['x'] (some (.num ⟨2, 1⟩)) (some ['g'])]],
   []⟩

/-! ### List helper lemmas -/

theorem tw_all {p : Char → Bool} : ∀ {xs : Str}, (∀ c ∈ xs, p c = true) → xs.takeWhile p = xs := by
  intro xs h
  induction xs with
  | nil => rfl
  | cons c cs ih =>
    have hc : p c = true := h c (List.mem_cons_self c cs)
    have hr := ih (fun d hd => h d (List.mem_cons_of_mem c hd))
    simp only [List.takeWhile_cons, hc, if_true, hr]

theorem tw_stop {p : Char → Bool} {y : Char} {ys : Str} :
    ∀ {xs : Str}, (∀ c ∈ xs, p c = true) → p y = false →
      (xs ++ y :: ys).takeWhile p = xs := by
  intro xs h hy
  induction xs with
  | nil => simp [List.takeWhile_cons, hy]
  | cons c cs ih =>
    have hc : p c = true := h c (List.mem_cons_self c cs)
    have hr := ih (fun d hd => h d (List.mem_cons_of_mem c hd))
    simp only [List.cons_append, List.takeWhile_cons, hc, if_true, hr]

theorem splitFirst_append {c : Char} {ys : Str} :
    ∀ {xs : Str}, c ∉ xs → splitFirst c (xs ++ c :: ys) = some (xs, ys) := by
  intro xs h
  induction xs with
  | nil => simp [splitFirst]
  | cons x xsr ih =>
    have hx : ¬ x = c := fun he => h (he ▸ List.mem_cons_self x xsr)
    simp [splitFirst, hx, ih (fun hm => h (List.mem_cons_of_mem x hm))]

theorem splitLines_newline {ys : Str} : splitLines ('\n' :: ys) = [] :: splitLines ys := by
  simp [splitLines]

theorem splitLines_append {ys : Str} :
    ∀ {xs : Str}, '\n' ∉ xs → splitLines (xs ++ '\n' :: ys) = xs :: splitLines ys := by
  intro xs h
  induction xs with
  | nil => simp [splitLines]
  | cons x xsr ih =>
    have hx : ¬ x = '\n' := fun he => h (he ▸ List.mem_cons_self x xsr)
    have ihr := ih (fun hm => h (List.mem_cons_of_mem x hm))
    simp only [List.cons_append, splitLines, hx, if_false]
    rw [show xsr.append ('\n' :: ys) = xsr ++ '\n' :: ys from rfl, ihr]

theorem ltrim_cons_wsp {c : Char} {s : Str} (h : wsp c = true) : ltrim (c :: s) = ltrim s := by
  simp [ltrim, List.dropWhile, h]

theorem trim_cons_space {s : Str} (h1 : ltrim s = s) (h2 : rtrim s = s) :
    trimChars (' ' :: s) = s := by
  have : ltrim (' ' :: s) = ltrim s := ltrim_cons_wsp (by decide)
  simp [trimChars, this, h1, h2]

/-! ### Scanner inversion -/

theorem scanItem_round (t : Tag) (nm inner rest : Str)
    (hn : ∀ c ∈ nm, nameStop c = false)
    (ht : trimChars nm = nm)
    (hi : '\x7d' ∉ inner) :
    scanItem t (nm ++ '\x7b' :: (inner ++ '\x7d' :: rest)) =
      (mkItem t nm (parseSlot inner).1 (parseSlot inner).2, rest) := by
  have hpre : (nm ++ '\x7b' :: (inner ++ '\x7d' :: rest)).takeWhile (fun c => !nameStop c) = nm :=
    tw_stop (fun c hc => by simp [hn c hc]) (by decide)
  have hslot : (inner ++ '\x7d' :: rest).takeWhile (fun c => c != '\x7d') = inner :=
    tw_stop (fun c hc => by
      have : ¬ c = '\x7d' := fun he => hi (he ▸ hc)
      simp [this]) (by decide)
  have hshape : nm ++ '\x7b' :: (inner ++ '\x7d' :: rest) =
      (nm ++ '\x7b' :: (inner ++ ['\x7d'])) ++ rest := by simp
  have hlen : (nm ++ '\x7b' :: (inner ++ ['\x7d'])).length = nm.length + 1 + inner.length + 1 := by
    simp [List.length_append]; omega
  simp only [scanItem, hpre]
  rw [List.drop_left]
  simp only [List.head?_cons, List.drop_succ_cons, List.drop_zero, hslot]
  rw [if_pos trivial, ht, hshape, List.drop_left' hlen]

theorem itemStr_sigil (it : StepItem) (h : isTextItem it = false) :
    ∃ c cs, itemStr it = c :: cs ∧ isSigil c = true := by
  cases it with
  | text v => simp [isTextItem] at h
  | ingredient n q u => exact ⟨'@', _, rfl, by decide⟩
  | cookware n q => exact ⟨'#', _, rfl, by decide⟩
  | timer n q u => exact ⟨'~', _, rfl, by decide⟩

theorem scanF_nil : ∀ f, scanStepF f [] = [] := by
  intro f; cases f <;> rfl

theorem nameOk_props {n : Str} (h : nameOk n = true) :
    (∀ c ∈ n, nameStop c = false) ∧ trimChars n = n := by
  simp only [nameOk, Bool.and_eq_true, List.all_eq_true, decide_eq_true_eq] at h
  refine ⟨fun c hc => ?_, h.2⟩
  have := h.1 c hc
  simp only [Bool.and_eq_true, Bool.not_eq_true'] at this
  exact this.1

theorem innerOk_props {s : Str} (h : innerOk s = true) : '\x7d' ∉ s := by
  simp only [innerOk, List.all_eq_true, Bool.and_eq_true] at h
  intro hm
  have := (h _ hm).1
  simp at this

theorem scanF_cons_item (f : Nat) (it : StepItem) (rest : Str)
    (hw : itemWFb it = true) (hnt : isTextItem it = false) :
    scanStepF (f + 1) (itemStr it ++ rest) = it :: scanStepF f rest := by
  cases it with
  | text v => simp [isTextItem] at hnt
  | ingredient n q u =>
    simp only [itemWFb, Bool.and_eq_true, decide_eq_true_eq] at hw
    obtain ⟨⟨hn, hinn⟩, hps⟩ := hw
    obtain ⟨hn1, hn2⟩ := nameOk_props hn
    have harr : itemStr (.ingredient n q u) ++ rest =
        '@' :: (n ++ '\x7b' :: (braceInner q u ++ '\x7d' :: rest)) := by
      simp [itemStr]
    rw [harr]
    simp only [scanStepF]
    rw [if_pos (by decide)]
    have : tagOf '@' = Tag.ingredient := by decide
    rw [this, scanItem_round _ _ _ _ hn1 hn2 (innerOk_props hinn), hps]
    rfl
  | cookware n q =>
    simp only [itemWFb, Bool.and_eq_true, decide_eq_true_eq] at hw
    obtain ⟨⟨hn, hinn⟩, hps⟩ := hw
    obtain ⟨hn1, hn2⟩ := nameOk_props hn
    have harr : itemStr (.cookware n q) ++ rest =
        '#' :: (n ++ '\x7b' :: (braceInner q none ++ '\x7d' :: rest)) := by
      simp [itemStr]
    rw [harr]
    simp only [scanStepF]
    rw [if_pos (by decide)]
    have : tagOf '#' = Tag.cookware := by decide
    rw [this, scanItem_round _ _ _ _ hn1 hn2 (innerOk_props hinn), hps]
    rfl
  | timer n q u =>
    simp only [itemWFb, Bool.and_eq_true, decide_eq_true_eq] at hw
    obtain ⟨⟨hn, hinn⟩, hps⟩ := hw
    obtain ⟨hn1, hn2⟩ := nameOk_props hn
    have harr : itemStr (.timer n q u) ++ rest =
        '~' :: (n ++ '\x7b' :: (braceInner q u ++ '\x7d' :: rest)) := by
      simp [itemStr]
    rw [harr]
    simp only [scanStepF]
    rw [if_pos (by decide)]
    have : tagOf '~' = Tag.timer := by decide
    rw [this, scanItem_round _ _ _ _ hn1 hn2 (innerOk_props hinn), hps]
    rfl

theorem scanF_cons_text (f : Nat) (v rest : Str)
    (hv : ¬ v = []) (hs : ∀ c ∈ v, isSigil c = false)
    (hrest : rest = [] ∨ ∃ c cs, rest = c :: cs ∧ isSigil c = true) :
    scanStepF (f + 1) (v ++ rest) = .text v :: scanStepF f rest := by
  cases v with
  | nil => exact absurd rfl hv
  | cons c cs =>
    have hc : isSigil c = false := hs c (List.mem_cons_self _ _)
    have hrun : (c :: (cs ++ rest)).takeWhile (fun x => !isSigil x) = c :: cs := by
      rcases hrest with h0 | ⟨c₀, cs₀, he, hsig⟩
      · subst h0
        have : ((c :: cs) ++ ([] : Str)).takeWhile (fun x => !isSigil x) = c :: cs := by
          rw [List.append_nil]
          exact tw_all (fun d hd => by simp [hs d hd])
        simpa using this
      · subst he
        have : ((c :: cs) ++ c₀ :: cs₀).takeWhile (fun x => !isSigil x) = c :: cs :=
          tw_stop (fun d hd => by simp [hs d hd]) (by simp [hsig])
        simpa using this
    have hdrop : (c :: (cs ++ rest)).drop (c :: cs).length = rest := by
      simp only [List.length_cons, List.drop_succ_cons]
      exact List.drop_left cs rest
    simp only [List.cons_append, List.append_eq, scanStepF, hc, Bool.false_eq_true, if_false,
      hrun, hdrop]

theorem items_le : ∀ {items : List StepItem}, itemsOk items = true →
    items.length ≤ ((items.map itemStr).flatten).length := by
  intro items
  induction items with
  | nil => intro _; simp
  | cons it rest ih =>
    intro h
    have hstep : ∃ hd tl, itemStr it = hd :: tl ∧ itemsOk rest = true := by
      cases it with
      | text v =>
        simp only [itemsOk, itemWFb, Bool.and_eq_true] at h
        obtain ⟨⟨⟨hne, _⟩, _⟩, hr⟩ := h
        cases v with
        | nil => simp at hne
        | cons c cs => exact ⟨c, cs, rfl, hr⟩
      | ingredient n q u =>
        simp only [itemsOk, Bool.and_eq_true] at h
        exact ⟨'@', _, rfl, h.2⟩
      | cookware n q =>
        simp only [itemsOk, Bool.and_eq_true] at h
        exact ⟨'#', _, rfl, h.2⟩
      | timer n q u =>
        simp only [itemsOk, Bool.and_eq_true] at h
        exact ⟨'~', _, rfl, h.2⟩
    obtain ⟨hd, tl, he, hr⟩ := hstep
    have := ih hr
    simp only [List.map_cons, List.flatten_cons, List.length_cons, List.length_append, he]
    omega

theorem scan_flatten : ∀ (items : List StepItem) (f : Nat), itemsOk items = true →
    items.length ≤ f → scanStepF f ((items.map itemStr).flatten) = items := by
  intro items
  induction items with
  | nil => intro f _ _; simp [scanF_nil]
  | cons it rest ih =>
    intro f h hf
    obtain ⟨f', rfl⟩ : ∃ f', f = f' + 1 := ⟨f - 1, by simp at hf ⊢; omega⟩
    have hlen : rest.length ≤ f' := by simp at hf; omega
    cases it with
    | text v =>
      simp only [itemsOk, Bool.and_eq_true] at h
      obtain ⟨⟨hitem, hhead⟩, hrestOk⟩ := h
      simp only [itemWFb, Bool.and_eq_true, Bool.not_eq_true', List.all_eq_true] at hitem
      obtain ⟨hne, hall⟩ := hitem
      have hv : ¬ v = [] := by
        intro he; rw [he] at hne; simp at hne
      have hsigv : ∀ c ∈ v, isSigil c = false := by
        intro c hc
        have := hall c hc
        simp only [Bool.and_eq_true, Bool.not_eq_true'] at this
        exact this.1
      have hshape : (rest.map itemStr).flatten = [] ∨
          ∃ c cs, (rest.map itemStr).flatten = c :: cs ∧ isSigil c = true := by
        cases rest with
        | nil => exact Or.inl rfl
        | cons it2 r2 =>
          have hnt : isTextItem it2 = false := by
            cases it2 with
            | text w => simp [headNotText] at hhead
            | ingredient n q u => rfl
            | cookware n q => rfl
            | timer n q u => rfl
          obtain ⟨c, cs, he, hsig⟩ := itemStr_sigil it2 hnt
          refine Or.inr ⟨c, cs ++ ((r2.map itemStr).flatten), ?_, hsig⟩
          simp [he]
      simp only [List.map_cons, List.flatten_cons, itemStr]
      rw [scanF_cons_text f' v _ hv hsigv hshape, ih f' hrestOk hlen]
    | ingredient n q u =>
      simp only [itemsOk, Bool.and_eq_true] at h
      simp only [List.map_cons, List.flatten_cons]
      rw [scanF_cons_item f' (.ingredient n q u) _ h.1 rfl, ih f' h.2 hlen]
    | cookware n q =>
      simp only [itemsOk, Bool.and_eq_true] at h
      simp only [List.map_cons, List.flatten_cons]
      rw [scanF_cons_item f' (.cookware n q) _ h.1 rfl, ih f' h.2 hlen]
    | timer n q u =>
      simp only [itemsOk, Bool.and_eq_true] at h
      simp only [List.map_cons, List.flatten_cons]
      rw [scanF_cons_item f' (.timer n q u) _ h.1 rfl, ih f' h.2 hlen]

theorem stepOk_items {s : List StepItem} (h : stepOk s = true) :
    itemsOk s = true ∧ ¬ s = [] := by
  simp only [stepOk, Bool.and_eq_true, Bool.not_eq_true', decide_eq_true_eq] at h
  refine ⟨h.1.1.1.1.2, ?_⟩
  intro he
  have := h.1.1.1.1.1
  rw [he] at this
  simp at this

theorem scanStep_round {s : List StepItem} (h : stepOk s = true) :
    scanStep (stepLine s) = s := by
  obtain ⟨hitems, _⟩ := stepOk_items h
  have hle := items_le hitems
  exact scan_flatten s _ hitems (by simpa [stepLine] using Nat.le_succ_of_le hle)

/-! ### Line decomposition of the serialized form -/

theorem kv_no_newline {kv : Str × Str} (h : kvOk kv = true) : '\n' ∉ metaLine kv.1 kv.2 := by
  simp only [kvOk, Bool.and_eq_true, decide_eq_true_eq] at h
  intro hm
  simp only [metaLine, List.mem_cons, List.mem_append] at hm
  rcases hm with h1 | h1 | h1 | h1
  · exact absurd h1 (by decide)
  · exact absurd h1 (by decide)
  · exact absurd h1 (by decide)
  rcases h1 with h2 | h2
  · exact h.1.1.1.2 h2
  rcases h2 with h3 | h3
  · exact absurd h3 (by decide)
  rcases h3 with h4 | h4
  · exact absurd h4 (by decide)
  · exact h.2 h4

theorem meta_peel (rest : Str) :
    ∀ (md : List (Str × Str)), (∀ kv ∈ md, kvOk kv = true) →
      splitLines ((md.map (fun kv => metaLine kv.1 kv.2 ++ ['\n'])).flatten ++ rest) =
        md.map (fun kv => metaLine kv.1 kv.2) ++ splitLines rest := by
  intro md h
  induction md with
  | nil => simp
  | cons kv md' ih =>
    have hkv := kv_no_newline (h kv (List.mem_cons_self _ _))
    have ihr := ih (fun x hx => h x (List.mem_cons_of_mem kv hx))
    have hshape :
        ((kv :: md').map (fun p => metaLine p.1 p.2 ++ ['\n'])).flatten ++ rest =
          metaLine kv.1 kv.2 ++ '\n' ::
            ((md'.map (fun p => metaLine p.1 p.2 ++ ['\n'])).flatten ++ rest) := by
      simp
    rw [hshape, splitLines_append hkv, ihr]
    simp

theorem steps_lines :
    ∀ (ls : List Str), ¬ ls = [] → (∀ l ∈ ls, '\n' ∉ l) →
      splitLines (joinSep ['\n', '\n'] ls ++ ['\n']) =
        (ls.map (fun l => [l, []])).flatten := by
  intro ls
  induction ls with
  | nil => intro h _; exact absurd rfl h
  | cons l ls' ih =>
    intro _ h
    cases ls' with
    | nil =>
      rw [show joinSep ['\n', '\n'] [l] = l from rfl]
      rw [splitLines_append (h l (List.mem_cons_self _ _))]
      rfl
    | cons l2 ls2 =>
      have hl : '\n' ∉ l := h l (List.mem_cons_self _ _)
      have ihr := ih (by simp) (fun x hx => h x (List.mem_cons_of_mem l hx))
      have hshape : joinSep ['\n', '\n'] (l :: l2 :: ls2) ++ ['\n'] =
          l ++ '\n' :: ('\n' :: (joinSep ['\n', '\n'] (l2 :: ls2) ++ ['\n'])) := by
        rw [show joinSep ['\n', '\n'] (l :: l2 :: ls2) =
              l ++ ['\n', '\n'] ++ joinSep ['\n', '\n'] (l2 :: ls2) from rfl]
        simp
      rw [hshape, splitLines_append hl, splitLines_newline, ihr]
      simp

/-! ### The line-feeding state machine on well-behaved lines -/

theorem metaLine_not_blank (k v : Str) : (metaLine k v).all wsp = false := by
  simp [metaLine, List.all_cons]
  intro h
  exact absurd h (by decide)

theorem readMetadata_meta {k v : Str} (h : kvOk (k, v) = true) :
    readMetadata (metaLine k v) = some (k, v) := by
  simp only [kvOk, Bool.and_eq_true, decide_eq_true_eq] at h
  obtain ⟨⟨⟨⟨⟨⟨hkl, hkr⟩, hkc⟩, _⟩, hvl⟩, hvr⟩, _⟩ := h
  have hsp : splitFirst ':' ((' ' :: k) ++ ':' :: (' ' :: v)) = some (' ' :: k, ' ' :: v) :=
    splitFirst_append (by
      intro hm
      rcases List.mem_cons.mp hm with h1 | h1
      · exact absurd h1 (by decide)
      · exact hkc h1)
  have hshape : metaLine k v = '>' :: '>' :: ((' ' :: k) ++ ':' :: (' ' :: v)) := by
    simp [metaLine]
  rw [hshape]
  simp only [readMetadata, hsp]
  rw [trim_cons_space hkl hkr, trim_cons_space hvl hvr]

theorem upsert_append {k : Str} {v : Str} :
    ∀ {l : List (Str × Str)}, k ∉ l.map Prod.fst → upsert l k v = l ++ [(k, v)] := by
  intro l h
  induction l with
  | nil => rfl
  | cons kv rest ih =>
    have hk : ¬ kv.1 = k := by
      intro he
      exact h (by simp [he])
    simp only [upsert, hk, if_false, List.cons_append, List.cons.injEq, true_and]
    exact ih (fun hm => h (by simp [hm]))

theorem feed_blank {st : PState} (h : st.inShopping = false) : feedLine st [] = endPara st := by
  simp [feedLine, h]

theorem fold_meta :
    ∀ (md : List (Str × Str)) (st : PState), st.inShopping = false →
      (∀ kv ∈ md, kvOk kv = true) →
      (st.metadata.map Prod.fst ++ md.map Prod.fst).Nodup →
      List.foldl feedLine st (md.map (fun kv => metaLine kv.1 kv.2)) =
        { st with metadata := st.metadata ++ md } := by
  intro md
  induction md with
  | nil => intro st _ _ _; simp
  | cons kv md' ih =>
    intro st hshop hkv hnd
    simp only [List.map_cons, List.foldl_cons]
    have hfeed : feedLine st (metaLine kv.1 kv.2) =
        { st with metadata := st.metadata ++ [(kv.1, kv.2)] } := by
      have hkv1 : kvOk (kv.1, kv.2) = true := by
        simpa using hkv kv (List.mem_cons_self _ _)
      have hnb := metaLine_not_blank kv.1 kv.2
      have hrm := readMetadata_meta hkv1
      have hnotmem : kv.1 ∉ st.metadata.map Prod.fst := by
        rw [List.nodup_append] at hnd
        intro hm
        exact hnd.2.2 hm (by simp)
      simp only [feedLine, hshop, Bool.false_eq_true, if_false, hnb, hrm]
      rw [upsert_append hnotmem]
    rw [hfeed]
    have hnd' : ((st.metadata ++ [(kv.1, kv.2)]).map Prod.fst ++ md'.map Prod.fst).Nodup := by
      simp only [List.map_append, List.map_cons, List.map_nil] at hnd ⊢
      simpa [List.append_assoc] using hnd
    have hih := ih { st with metadata := st.metadata ++ [(kv.1, kv.2)] } hshop
      (fun x hx => hkv x (List.mem_cons_of_mem kv hx)) hnd'
    rw [hih]
    simp [List.append_assoc]

theorem fold_steps :
    ∀ (ss : List (List StepItem)) (st : PState), st.inShopping = false → st.cur = [] →
      (∀ s ∈ ss, stepOk s = true) →
      List.foldl feedLine st ((ss.map (fun s => [stepLine s, []])).flatten) =
        { st with steps := st.steps ++ ss } := by
  intro ss
  induction ss with
  | nil => intro st _ _ _; simp
  | cons s ss' ih =>
    intro st hshop hcur hok
    have hs0 := hok s (List.mem_cons_self _ _)
    have hscan : scanStep (stepLine s) = s := scanStep_round hs0
    simp only [stepOk, Bool.and_eq_true, Bool.not_eq_true', decide_eq_true_eq] at hs0
    obtain ⟨⟨⟨⟨⟨hne, _⟩, _⟩, hblank⟩, hmeta⟩, hmark⟩ := hs0
    have hflat : (((s :: ss').map (fun x => [stepLine x, []])).flatten) =
        stepLine s :: [] :: ((ss'.map (fun x => [stepLine x, []])).flatten) := by
      simp
    rw [hflat]
    simp only [List.foldl_cons]
    have hfeed1 : feedLine st (stepLine s) = { st with cur := s } := by
      simp only [feedLine, hshop, Bool.false_eq_true, if_false, hblank, hmeta]
      rw [if_neg hmark, hscan, hcur]
      simp
    rw [hfeed1]
    have hfeed2 : feedLine { st with cur := s } ([] : Str) =
        { st with steps := st.steps ++ [s], cur := [] } := by
      rw [feed_blank (by simpa using hshop)]
      simp only [endPara, hne, Bool.false_eq_true, if_false]
    rw [hfeed2]
    have hih := ih { st with steps := st.steps ++ [s], cur := [] } hshop rfl
      (fun x hx => hok x (List.mem_cons_of_mem s hx))
    rw [hih]
    simp [List.append_assoc, hcur]

theorem stepOk_noNewline {s : List StepItem} (h : stepOk s = true) : '\n' ∉ stepLine s := by
  simp only [stepOk, Bool.and_eq_true, decide_eq_true_eq] at h
  exact h.1.1.1.2

theorem roundtrip_core {r : Recipe} (h : wfRecipe r) : parseChars (toCooklang r) = r := by
  obtain ⟨hshop, hnd, hkv, hsteps, hstrip⟩ := h
  have hform : toCooklang r =
      (r.metadata.map (fun kv => metaLine kv.1 kv.2 ++ ['\n'])).flatten ++
        '\n' :: (joinSep ['\n', '\n'] (r.steps.map stepLine) ++ ['\n']) := by
    rw [show toCooklang r = (r.metadata.map (fun kv => metaLine kv.1 kv.2 ++ ['\n'])).flatten ++
      ['\n'] ++ (joinSep ['\n', '\n'] (r.steps.map stepLine) ++ ['\n'] ++
        joinSep ['\n', '\n'] (r.shoppingList.map categoryStr)) from rfl]
    rw [hshop]
    simp [joinSep]
  have key : (splitLines (stripComments (toCooklang r))).foldl feedLine ⟨[], [], [], false, []⟩ =
      (⟨r.metadata, r.steps, [], false, []⟩ : PState) := by
    rw [hstrip, hform, meta_peel _ _ hkv, splitLines_newline, List.foldl_append]
    rw [fold_meta r.metadata _ rfl hkv (by simpa using hnd)]
    have hst1 : ({ (⟨[], [], [], false, []⟩ : PState) with metadata := [] ++ r.metadata }) =
        (⟨r.metadata, [], [], false, []⟩ : PState) := by simp
    rw [hst1]
    rw [List.foldl_cons, feed_blank rfl]
    rw [show endPara (⟨r.metadata, [], [], false, []⟩ : PState) =
      (⟨r.metadata, [], [], false, []⟩ : PState) from rfl]
    cases hss : r.steps with
    | nil =>
      rw [show joinSep ['\n', '\n'] (([] : List (List StepItem)).map stepLine) = [] from rfl]
      rw [show splitLines ([] ++ ['\n']) = [[], []] from rfl]
      rfl
    | cons s0 ss' =>
      have hlines : ∀ l ∈ (s0 :: ss').map stepLine, '\n' ∉ l := by
        intro l hl
        obtain ⟨s, hs, rfl⟩ := List.mem_map.mp hl
        exact stepOk_noNewline (hsteps s (hss ▸ hs))
      rw [steps_lines _ (by simp) hlines]
      have hmm : (((s0 :: ss').map stepLine).map (fun l => [l, []])).flatten =
          ((s0 :: ss').map (fun s => [stepLine s, []])).flatten := by
        rw [List.map_map]
        rfl
      rw [hmm, fold_steps _ _ rfl rfl (fun s hs => hsteps s (hss ▸ hs))]
      rfl
  have hfin : parseChars (toCooklang r) =
      Recipe.mk r.metadata r.steps [] := by
    rw [show parseChars (toCooklang r) =
      (let st := (splitLines (stripComments (toCooklang r))).foldl feedLine ⟨[], [], [], false, []⟩;
       let st := endPara st;
       Recipe.mk st.metadata st.steps st.shopping) from rfl]
    rw [key]
    rfl
  rw [hfin]
  cases r with
  | mk md ss sl =>
    simp only at hshop
    rw [hshop]

/-! ### Claims -/

/-- C1: for every finite input string — including the empty string, strings
with unmatched braces, and strings with unterminated block comments —
constructing a Recipe from a source string returns a Recipe value and never
throws or aborts: the parse function is total, and the edge inputs evaluate
to concrete recipes. -/
theorem c1_parse_is_total :
    (∀ s : String, ∃ r : Recipe, recipeMake (some s) = r) ∧
    recipeMake (some "") = ⟨[], [], []⟩ ∧
    recipeMake none = ⟨[], [], []⟩ ∧
    parseChars (("@x\x7b1").data) =
      ⟨[], [[.ingredient ['x'] (some (.num ⟨1, 1⟩)) none]], []⟩ ∧
    parseChars (("[- oops").data) = ⟨[], [], []⟩ :=
  ⟨fun s => ⟨recipeMake (some s), rfl⟩, by decide, by decide, by decide, by decide⟩

/-- C2 (counterexample): a recipe from the claimed canonical subset — only
a single text step, no comments, no quantities — whose serialized form
looks like a metadata line, so parsing the serializer's output yields a
different metadata map and step sequence. -/
theorem c2_subset_roundtrip_fails :
    ¬ parseChars (toCooklang ⟨[], [[.text ((">> a: b").data)]], []⟩) =
        ⟨[], [[.text ((">> a: b").data)]], []⟩ ∧
    parseChars (toCooklang ⟨[], [[.text ((">> a: b").data)]], []⟩) =
      ⟨[(['a'], ['b'])], [], []⟩ := by
  exact ⟨by decide, by decide⟩

/-- C2 (amended): for recipes with an empty shopping list whose metadata
and steps satisfy the serialization-compatibility conditions of wfRecipe
(distinct trimmed colon-free keys, trimmed values, steps whose rendered
lines are not blank, metadata-shaped or marker-shaped, text items
non-empty, sigil-free and non-adjacent, names trimmed and free of sigils
and braces, brace slots that re-parse to exactly their quantity and units,
and a serialized form free of comment markers), parsing the serializer's
output reproduces the recipe exactly. -/
theorem c2_roundtrip_on_wf (r : Recipe) (h : wfRecipe r) :
    parseChars (toCooklang r) = r :=
  roundtrip_core h

/-- Witness for C2: the sample recipe satisfies the conditions and round
trips. -/
theorem c2_roundtrip_on_wf_witness :
    wfRecipe sampleRecipe ∧ parseChars (toCooklang sampleRecipe) = sampleRecipe :=
  ⟨by decide, c2_roundtrip_on_wf sampleRecipe (by decide)⟩

/-- C3 (counterexample): getImageURL performs no validation at all — a
negative step and a non-integer step are not rejected, they are formatted
into URL strings. -/
theorem c3_no_rejection :
    getImageURL (("Soup").data) (some ⟨some ⟨-2, 1⟩, none⟩) = (("Soup.-2.png").data) ∧
    getImageURL (("Soup").data) (some ⟨some ⟨3, 2⟩, none⟩) = (("Soup.1.5.png").data) := by
  exact ⟨by decide, by decide⟩

/-- C3 (amended): for every name, extension option and step whose numeric
value is non-zero — negative and non-integer values included — getImageURL
returns the formatted string name, dot, rendered step, dot, effective
extension; no invalid-argument condition exists anywhere on this path. -/
theorem c3_negative_step_formats (name : Str) (s : Qnum) (e : Option Str)
    (h : ¬ s.num = 0) :
    getImageURL name (some ⟨some s, e⟩) =
      name ++ ('.' :: renderNum s) ++ '.' :: extEff e := by
  have hnz : (s.num != 0) = true := by simpa using h
  simp only [getImageURL, extEff, Option.getD, hnz, if_true]

/-- Witness for C3: the negative step formats as claimed. -/
theorem c3_negative_step_formats_witness :
    ¬ (⟨-2, 1⟩ : Qnum).num = 0 ∧
    getImageURL (("Soup").data) (some ⟨some ⟨-2, 1⟩, some (("jpg").data)⟩) =
      (("Soup").data) ++ ('.' :: renderNum ⟨-2, 1⟩) ++ '.' :: extEff (some (("jpg").data)) :=
  ⟨by decide, c3_negative_step_formats (("Soup").data) ⟨-2, 1⟩ (some (("jpg").data)) (by decide)⟩

/-- C4 (counterexample): with an empty-string extension present, the
builder does not return name, dot, empty extension — the empty string is
falsy, so the png default applies. -/
theorem c4_empty_extension_defaults :
    getImageURL (("Soup").data) (some ⟨none, some []⟩) = (("Soup.png").data) ∧
    ¬ getImageURL (("Soup").data) (some ⟨none, some []⟩) = (("Soup.").data) := by
  exact ⟨by decide, by decide⟩

/-- C4 (amended): for every name and options whose step, when present, is
a positive integer, getImageURL returns the name, a dot and the step when
the step is given, then a dot and the extension, where the extension
defaults to png when the option is absent or empty; with no options the
result is name dot png. -/
theorem c4_format (name : Str) (st : Option Qnum) (e : Option Str)
    (h : stepPosInt st = true) :
    getImageURL name (some ⟨st, e⟩) =
      name ++ (match st with | some s => '.' :: renderNum s | none => []) ++
        '.' :: extEff e ∧
    getImageURL name none = name ++ [] ++ '.' :: (("png").data) := by
  constructor
  · cases st with
    | none => simp only [getImageURL, extEff, Option.getD]
    | some s =>
      simp only [stepPosInt, Bool.and_eq_true, decide_eq_true_eq] at h
      have hnz : (s.num != 0) = true := by
        simp only [bne_iff_ne, ne_eq, decide_eq_true_eq]
        omega
      simp only [getImageURL, extEff, Option.getD, hnz, if_true]
  · simp only [getImageURL, extEff, Option.getD]

/-- Witness for C4: the documented example with a positive integer step. -/
theorem c4_format_witness :
    stepPosInt (some ⟨2, 1⟩) = true ∧
    getImageURL (("Baked Potato").data) (some ⟨some ⟨2, 1⟩, some (("jpg").data)⟩) =
      (("Baked Potato.2.jpg").data) ∧
    getImageURL (("Soup").data) none = (("Soup.png").data) :=
  ⟨by decide,
   ((c4_format (("Baked Potato").data) (some ⟨2, 1⟩) (some (("jpg").data)) (by decide)).1).trans
     (by decide),
   by decide⟩

/-- C5 (counterexample): with one text step and one shopping category, the
serialized output has no blank line between the steps block and the
shopping-list block — the claimed blank-line-joined output differs from
the actual one. -/
theorem c5_single_newline_join :
    toCooklang ⟨[], [[.text ['a']]], [(("cat").data, [⟨['x'], none⟩])]⟩ =
      (("\na\ncat\nx").data) ∧
    ¬ toCooklang ⟨[], [[.text ['a']]], [(("cat").data, [⟨['x'], none⟩])]⟩ =
      (("\n\na\n\ncat\nx").data) := by
  exact ⟨by decide, by decide⟩

/-- C5 (amended): the serializer joins the three sections — metadata
block, steps block, shopping-list block — with single-newline separators;
each metadata line carries its own trailing newline, so a blank line
follows a non-empty metadata block, but no blank line separates the steps
block from the shopping-list block. -/
theorem c5_sections_layout (r : Recipe) :
    toCooklang r = metadataSection r ++ '\n' :: (stepsSection r ++ '\n' :: shoppingSection r) := by
  rw [show toCooklang r =
    joinSep ['\n'] [metadataSection r, stepsSection r, shoppingSection r] from rfl]
  simp [joinSep]

/-- C6 (counterexample): an ingredient with the present quantity zero is
not serialized with its quantity inside the braces; the zero is dropped
because only truthy quantities are emitted. -/
theorem c6_zero_quantity_dropped :
    itemStr (.ingredient ['x'] (some (.num ⟨0, 1⟩)) none) = (("@x\x7b\x7d").data) ∧
    ¬ itemStr (.ingredient ['x'] (some (.num ⟨0, 1⟩)) none) = (("@x\x7b0\x7d").data) := by
  exact ⟨by decide, by decide⟩

/-- C6 (amended): the serializer emits each step as the concatenation of
its items — text verbatim, annotated items as sigil, name and a brace
pair holding the quantity when present and truthy and a percent sign and
the units when present and non-empty — joins consecutive steps with a
blank line, and emits each shopping category as its header line followed
by one item line per item, the item line being the name, with a pipe and
the synonym when the synonym is present and non-empty. -/
theorem c6_rendering :
    (∀ v, itemStr (.text v) = v) ∧
    (∀ n qv us, qtruthy qv = true → ¬ us = [] →
      itemStr (.ingredient n (some qv) (some us)) =
        '@' :: (n ++ '\x7b' :: ((quantityStr qv ++ ('%' :: us)) ++ ['\x7d']))) ∧
    (∀ n qv, qtruthy qv = true →
      itemStr (.cookware n (some qv)) =
        '#' :: (n ++ '\x7b' :: (quantityStr qv ++ ['\x7d']))) ∧
    (∀ n qv us, qtruthy qv = true → ¬ us = [] →
      itemStr (.timer n (some qv) (some us)) =
        '~' :: (n ++ '\x7b' :: ((quantityStr qv ++ ('%' :: us)) ++ ['\x7d']))) ∧
    (∀ s, stepLine s = (s.map itemStr).flatten) ∧
    (∀ s1 s2 ss, joinSep ['\n', '\n'] ((s1 :: s2 :: ss).map stepLine) =
      stepLine s1 ++ '\n' :: '\n' :: joinSep ['\n', '\n'] ((s2 :: ss).map stepLine)) ∧
    (∀ cat its, categoryStr (cat, its) = cat ++ '\n' :: joinSep ['\n'] (its.map itemLine)) ∧
    (∀ nm syn, ¬ syn = [] → itemLine ⟨nm, some syn⟩ = nm ++ '|' :: syn) ∧
    (∀ nm, itemLine ⟨nm, none⟩ = nm) := by
  refine ⟨fun v => rfl, ?_, ?_, ?_, fun s => rfl, ?_, fun cat its => rfl, ?_, ?_⟩
  · intro n qv us hq hu
    have hu' : (!us.isEmpty) = true := by
      cases us with
      | nil => exact absurd rfl hu
      | cons a l => rfl
    simp [itemStr, braceInner, hq, hu']
  · intro n qv hq
    simp [itemStr, braceInner, hq]
  · intro n qv us hq hu
    have hu' : (!us.isEmpty) = true := by
      cases us with
      | nil => exact absurd rfl hu
      | cons a l => rfl
    simp [itemStr, braceInner, hq, hu']
  · intro s1 s2 ss
    rw [show joinSep ['\n', '\n'] ((s1 :: s2 :: ss).map stepLine) =
      stepLine s1 ++ ['\n', '\n'] ++ joinSep ['\n', '\n'] ((s2 :: ss).map stepLine) from rfl]
    simp
  · intro nm syn hs
    have hs' : (!syn.isEmpty) = true := by
      cases syn with
      | nil => exact absurd rfl hs
      | cons a l => rfl
    simp [itemLine, hs']
  · intro nm
    simp [itemLine]

/-- Witness for C6: a truthy quantity and non-empty units render inside
the braces with the percent separator. -/
theorem c6_rendering_witness :
    qtruthy (.num ⟨3, 2⟩) = true ∧ ¬ (['g'] : Str) = [] ∧
    itemStr (.ingredient ['x'] (some (.num ⟨3, 2⟩)) (some ['g'])) =
      '@' :: (['x'] ++ '\x7b' :: ((quantityStr (.num ⟨3, 2⟩) ++ ('%' :: ['g'])) ++ ['\x7d'])) :=
  ⟨by decide, by decide, c6_rendering.2.1 ['x'] (.num ⟨3, 2⟩) ['g'] (by decide) (by decide)⟩

/-- C7: the quantity grammar tried in order with first match winning — the
fraction slot text gives one half, the comma decimal gives one and a half,
the plain integer gives two, free text falls back to the raw text kept
verbatim, and the empty slot gives no quantity at all. -/
theorem c7_quantity_grammar :
    parseSlot (("1/2").data) = (some (.num ⟨1, 2⟩), none) ∧ (⟨1, 2⟩ : Qnum).val = 1 / 2 ∧
    parseSlot (("1,5").data) = (some (.num ⟨3, 2⟩), none) ∧ (⟨3, 2⟩ : Qnum).val = 1.5 ∧
    parseSlot (("2").data) = (some (.num ⟨2, 1⟩), none) ∧ (⟨2, 1⟩ : Qnum).val = 2 ∧
    parseSlot (("a pinch").data) = (some (.text (("a pinch").data)), none) ∧
    parseSlot [] = (none, none) := by
  refine ⟨by decide, ?_, by decide, ?_, by decide, ?_, by decide, by decide⟩
  · show Qnum.val ⟨1, 2⟩ = 1 / 2
    unfold Qnum.val
    norm_num
  · show Qnum.val ⟨3, 2⟩ = 1.5
    unfold Qnum.val
    norm_num
  · show Qnum.val ⟨2, 1⟩ = 2
    unfold Qnum.val
    norm_num

/-- C8: a non-text item with no quantity and no units still serializes
with an empty brace pair right after its name, never in the bare
single-word form. -/
theorem c8_always_braces :
    (∀ n, itemStr (.ingredient n none none) = '@' :: (n ++ ['\x7b', '\x7d'])) ∧
    (∀ n, itemStr (.cookware n none) = '#' :: (n ++ ['\x7b', '\x7d'])) ∧
    (∀ n, itemStr (.timer n none none) = '~' :: (n ++ ['\x7b', '\x7d'])) ∧
    itemStr (.ingredient (("banana").data) none none) = (("@banana\x7b\x7d").data) ∧
    ¬ itemStr (.ingredient (("banana").data) none none) = '@' :: (("banana").data) := by
  refine ⟨fun n => ?_, fun n => ?_, fun n => ?_, by decide, by decide⟩ <;>
    simp [itemStr, braceInner]

/-- C9: the serializer emits quantity and units only when truthy, so a
numeric quantity of value zero and an empty units string serialize
exactly like the absent field. -/
theorem c9_falsy_omitted :
    (∀ n u d, itemStr (.ingredient n (some (.num ⟨0, d⟩)) u) = itemStr (.ingredient n none u)) ∧
    (∀ n q, itemStr (.ingredient n q (some [])) = itemStr (.ingredient n q none)) ∧
    (∀ n d, itemStr (.cookware n (some (.num ⟨0, d⟩))) = itemStr (.cookware n none)) ∧
    (∀ n u d, itemStr (.timer n (some (.num ⟨0, d⟩)) u) = itemStr (.timer n none u)) ∧
    (∀ n q, itemStr (.timer n q (some [])) = itemStr (.timer n q none)) := by
  refine ⟨fun n u d => ?_, fun n q => ?_, fun n d => ?_, fun n u d => ?_, fun n q => ?_⟩ <;>
    simp [itemStr, braceInner, qtruthy]

/-- C10: toJSON serializes exactly the metadata and steps fields — the
output never depends on the shopping list, and its top level consists of
precisely the metadata member followed by the steps member. -/
theorem c10_toJSON_fields :
    (∀ md ss sl sl', toJSON ⟨md, ss, sl⟩ = toJSON ⟨md, ss, sl'⟩) ∧
    (∀ r : Recipe, toJSON r =
      '\x7b' :: ((("\"metadata\":").data) ++ jsonMetadata r.metadata ++
        ((",\"steps\":").data) ++ jsonSteps r.steps ++ ['\x7d'])) :=
  ⟨fun _ _ _ _ => rfl, fun _ => rfl⟩
